import Mathlib

/-!
Shallow embedding of the core of ROM Librarian (a ROM-collection manager):
hashing (src/operations/file_ops.py), DAT parsing (src/parsers/dat_parser.py),
file filtering (src/rom_manager.py), rename planning/execution/undo
(src/ui/tabs/rename_tab.py), the hash cache (src/ui/tabs/duplicates_tab.py),
DAT matching (src/ui/tabs/dat_rename_tab.py) and the duplicate keep/delete
state machine (src/ui/tabs/duplicates_tab.py), together with theorems
settling the specification claims about them.

Machine integers are modelled as Nat with explicit masking where overflow
matters; Python dictionaries as insertion-ordered association lists with
unique keys; the filesystem as explicit maps passed to each operation.
MD5 and SHA1 are external primitives of the Python standard library, so they
enter the model as function parameters from byte streams to digest strings;
CRC32 (zlib semantics) is implemented concretely.  Reading a file in 1 MiB
chunks and feeding every chunk to all running digests is equivalent to
feeding the whole stream once, so the embedding hashes whole byte lists.
-/

namespace RomLib

/-! ## Constants (src/core/constants.py) -/

def ROM_EXTENSIONS_WHITELIST : List String :=
  [".nds", ".gba", ".gbc", ".gb", ".sfc", ".smc", ".nes", ".n64", ".z64", ".v64",
   ".md", ".smd", ".gen", ".gg", ".sms", ".pce", ".ngp", ".ngc", ".ws", ".wsc",
   ".bin", ".iso", ".cue", ".chd", ".cso", ".gcm", ".rvz", ".wbfs", ".wad",
   ".dol", ".elf", ".nsp", ".xci", ".nca",
   ".zip", ".7z", ".rar", ".gz"]

def FILE_EXTENSIONS_BLACKLIST : List String :=
  [".png", ".jpg", ".jpeg", ".gif", ".bmp", ".webp", ".tiff", ".ico",
   ".pdf", ".txt", ".doc", ".docx", ".rtf", ".md",
   ".exe", ".dll", ".bat", ".sh", ".msi",
   ".mp4", ".avi", ".mkv", ".mp3", ".wav", ".flac",
   ".xml", ".json", ".dat", ".ini", ".cfg",
   ".db", ".tmp", ".log", ".bak"]

def EXCLUDED_FOLDER_NAMES : List String :=
  ["media", "screenshots", "manuals", "boxart", "box art", "images",
   "saves", "savedata", "docs", "documentation", "videos"]

/-! ## String primitives

Executable models of the Python string operations the source uses
(str.lower restricted to ASCII, str.endswith, str.startswith, splitting on
a separator character), defined over the character list of a string so that
closed instances evaluate inside the kernel. -/

def toLowerChar (c : Char) : Char :=
  if 65 ≤ c.toNat ∧ c.toNat ≤ 90 then Char.ofNat (c.toNat + 32) else c

/-- str.lower() (ASCII range; every string the claims touch is ASCII). -/
def lowerStr (s : String) : String :=
  String.mk (s.data.map toLowerChar)

/-- str.endswith(suffix). -/
def strEndsWith (s suffix : String) : Bool :=
  List.isSuffixOf suffix.data s.data

/-- str.startswith for a one-character prefix. -/
def strStartsWithChar (s : String) (c : Char) : Bool :=
  match s.data.head? with
  | some d => d = c
  | none => false

/-- Split a character list at every occurrence of a separator. -/
def splitCharsOn (c : Char) : List Char → List Char → List (List Char)
  | [], cur => [cur.reverse]
  | d :: rest, cur =>
    if d = c then cur.reverse :: splitCharsOn c rest []
    else splitCharsOn c rest (d :: cur)

/-- str.split(sep) for a one-character separator. -/
def strSplitOnChar (s : String) (c : Char) : List String :=
  (splitCharsOn c s.data []).map String.mk

/-! ## Path helpers (model of posixpath splitext / pathlib parts) -/

/-- Index of the last occurrence of a character in a list of characters
(Python str.rfind restricted to one character). -/
def lastIndexOf (c : Char) (s : List Char) : Option Nat :=
  (List.range s.length).foldl
    (fun acc i => if s.get? i = some c then some i else acc) none

/-- Model of os.path.splitext (posixpath): split off the extension at the
last dot of the last path component, except that a basename consisting of
leading dots only has no extension. -/
def splitext (p : String) : String × String :=
  let s := p.data
  let sepIdx : Int := match lastIndexOf '/' s with
    | some i => (i : Int)
    | none => -1
  let dotIdx : Int := match lastIndexOf '.' s with
    | some i => (i : Int)
    | none => -1
  if sepIdx < dotIdx then
    let startIdx := (sepIdx + 1).toNat
    let dotN := dotIdx.toNat
    if (List.range' startIdx (dotN - startIdx)).any
        (fun i => decide (s.get? i ≠ some '.')) then
      (String.mk (s.take dotN), String.mk (s.drop dotN))
    else (p, "")
  else (p, "")

/-- Model of pathlib Path(p).parts for posix paths: the root anchor when the
path is absolute, followed by the nonempty components. -/
def pathParts (p : String) : List String :=
  let comps := (strSplitOnChar p '/').filter (fun c => c ≠ "")
  if strStartsWithChar p '/' then "/" :: comps else comps

/-! ## Python dict model: insertion-ordered association list, unique keys -/

/-- Python dict assignment d[k] = v: update in place when the key exists
(keeping its position), otherwise append at the end. -/
def dictSet (m : List (String × String)) (k v : String) :
    List (String × String) :=
  if m.any (fun p => p.1 = k) then
    m.map (fun p => if p.1 = k then (k, v) else p)
  else m ++ [(k, v)]

/-- Python dict lookup d.get(k) (keys are unique, so the first match is the
only match). -/
def dictLookup (m : List (String × String)) (k : String) : Option String :=
  (m.find? (fun p => p.1 = k)).map (fun p => p.2)

/-! ## should_include_file (src/rom_manager.py lines 2176-2205) -/

def should_include_file (file_path : String) (filter_mode : String) : Bool :=
  if filter_mode = "all_files" then true
  else
    let ext := (splitext file_path).2
    let ext_lower := lowerStr ext
    if (pathParts file_path).any
        (fun part => EXCLUDED_FOLDER_NAMES.contains (lowerStr part)) then false
    else if ROM_EXTENSIONS_WHITELIST.contains ext_lower then true
    else if ext_lower = ".zip" then true
    else if FILE_EXTENSIONS_BLACKLIST.contains ext_lower then false
    else false

/-- The rom_only policy exactly as the specification words it: exclude on an
excluded folder component; else include on whitelist; else include on
extension ".zip" exactly; else exclude on blacklist; else exclude. -/
def rom_only_spec (file_path : String) : Bool :=
  if (pathParts file_path).any
      (fun part => EXCLUDED_FOLDER_NAMES.contains (lowerStr part)) then false
  else if ROM_EXTENSIONS_WHITELIST.contains (lowerStr (splitext file_path).2)
    then true
  else if lowerStr (splitext file_path).2 = ".zip" then true
  else if FILE_EXTENSIONS_BLACKLIST.contains (lowerStr (splitext file_path).2)
    then false
  else false

/-! ## Hashing engine (src/operations/file_ops.py) -/

/-- One bit step of the reflected CRC32 computation (polynomial 0xEDB88320),
on a 32-bit accumulator held as a Nat below 2^32. -/
def crc32Step (c : Nat) : Nat :=
  if c % 2 = 1 then Nat.xor (c / 2) 0xEDB88320 else c / 2

/-- Fold one input byte into the CRC32 accumulator. -/
def crc32Byte (c b : Nat) : Nat :=
  Nat.iterate crc32Step 8 (Nat.xor c (b % 256))

/-- zlib.crc32(data, value): running CRC32 with pre/post conditioning. -/
def crc32 (data : List Nat) (value : Nat) : Nat :=
  Nat.xor (data.foldl crc32Byte (Nat.xor (value % 2 ^ 32) 0xFFFFFFFF)) 0xFFFFFFFF

/-- One lowercase hexadecimal digit. -/
def hexDigit (n : Nat) : Char :=
  if n < 10 then Char.ofNat (48 + n) else Char.ofNat (87 + n)

/-- format(n, "08x"): eight lowercase hex digits, zero padded
(for values below 2^32). -/
def hexPad8 (n : Nat) : String :=
  String.mk ((List.range 8).map (fun i => hexDigit (n / 16 ^ (7 - i) % 16)))

/-- The digest triple of one byte stream: CRC32 (masked to 32 bits and
formatted as in the source), MD5 and SHA1.  MD5 and SHA1 are the hashlib
primitives, taken as parameters of the model. -/
def hashStream (md5Fn sha1Fn : List Nat → String) (data : List Nat) :
    String × String × String :=
  (hexPad8 (Nat.land (crc32 data 0) 0xFFFFFFFF), md5Fn data, sha1Fn data)

/-- A file on disk: either a plain byte stream, or a valid ZIP archive with
its raw archive bytes and its entry list (name, decompressed content) in
namelist order.  zipfile.is_zipfile holds exactly for the second form. -/
inductive FsObj where
  | regular (content : List Nat)
  | zipArchive (raw : List Nat) (entries : List (String × List Nat))

/-- The entry-selection loop of calculate_file_hashes, fused with the
subsequent zipf.open: walk the namelist in order, skip directories, and
return the first entry whose lowercased extension is whitelisted. -/
def findRomEntry : List (String × List Nat) → Option (String × List Nat)
  | [] => none
  | e :: rest =>
    if ¬ strEndsWith e.1 "/" ∧
        ROM_EXTENSIONS_WHITELIST.contains (lowerStr (splitext e.1).2) then
      some e
    else findRomEntry rest

/-- calculate_file_hashes (src/operations/file_ops.py lines 14-75).
The zip branch is taken only when the path (lowercased) ends in ".zip" AND
the file is a valid ZIP; otherwise the raw bytes are hashed, and a missing
file surfaces as an error. -/
def calculate_file_hashes (md5Fn sha1Fn : List Nat → String)
    (fs : String → Option FsObj) (file_path : String) :
    Except String (String × String × String) :=
  if strEndsWith (lowerStr file_path) ".zip" then
    match fs file_path with
    | some (FsObj.zipArchive _raw entries) =>
      match findRomEntry entries with
      | some e => Except.ok (hashStream md5Fn sha1Fn e.2)
      | none =>
        Except.error ("No ROM file found in zip: " ++ file_path)
    | some (FsObj.regular content) =>
      Except.ok (hashStream md5Fn sha1Fn content)
    | none => Except.error ("Failed to hash file " ++ file_path)
  else
    match fs file_path with
    | some (FsObj.regular content) =>
      Except.ok (hashStream md5Fn sha1Fn content)
    | some (FsObj.zipArchive raw _entries) =>
      Except.ok (hashStream md5Fn sha1Fn raw)
    | none => Except.error ("Failed to hash file " ++ file_path)

/-! ## DAT parser (src/parsers/dat_parser.py) -/

/-- A <rom> element: the crc/md5/sha1 attributes, "" when absent
(rom.get(attr, "")). -/
structure RomElem where
  crc : String
  md5 : String
  sha1 : String
deriving DecidableEq

/-- A direct child element of the DAT root: its tag, its name attribute
("" when absent) and its <rom> children in document order. -/
structure DatEntry where
  tag : String
  name : String
  roms : List RomElem
deriving DecidableEq

/-- A DAT document: the root's direct children in document order. -/
structure DatDoc where
  children : List DatEntry
deriving DecidableEq

/-- Insert one <rom> element's nonempty lowercased hashes for an entry name
into the flat index, in source order crc, md5, sha1. -/
def insertRomHashes (name : String) (acc : List (String × String))
    (rom : RomElem) : List (String × String) :=
  let c := lowerStr rom.crc
  let m := lowerStr rom.md5
  let s := lowerStr rom.sha1
  let acc1 := if c ≠ "" then dictSet acc c name else acc
  let acc2 := if m ≠ "" then dictSet acc1 m name else acc1
  if s ≠ "" then dictSet acc2 s name else acc2

/-- The entry list parse_dat_file iterates: all <game> children, then all
<machine> children when both appear; otherwise whichever is present. -/
def datEntries (doc : DatDoc) : List DatEntry :=
  let games := doc.children.filter (fun e => e.tag = "game")
  let machines := doc.children.filter (fun e => e.tag = "machine")
  if ¬ games.isEmpty ∧ ¬ machines.isEmpty then games ++ machines
  else if ¬ games.isEmpty then games
  else if ¬ machines.isEmpty then machines
  else []

/-- parse_dat_file (src/parsers/dat_parser.py lines 10-70) on an already
parsed XML document: build the flat hash-to-name dict. -/
def parse_dat_file (doc : DatDoc) : List (String × String) :=
  (datEntries doc).foldl
    (fun acc entry =>
      if entry.name = "" then acc
      else entry.roms.foldl (insertRomHashes entry.name) acc)
    []

/-- The (hash, name) assignments one <rom> element contributes, in source
order crc, md5, sha1 (empty attributes contribute nothing). -/
def romPairs (name : String) (rom : RomElem) : List (String × String) :=
  (if lowerStr rom.crc ≠ "" then [(lowerStr rom.crc, name)] else []) ++
  (if lowerStr rom.md5 ≠ "" then [(lowerStr rom.md5, name)] else []) ++
  (if lowerStr rom.sha1 ≠ "" then [(lowerStr rom.sha1, name)] else [])

/-- The (hash, name) assignments one entry contributes (none for a nameless
entry). -/
def entryPairs (entry : DatEntry) : List (String × String) :=
  if entry.name = "" then [] else entry.roms.flatMap (romPairs entry.name)

/-- The flat sequence of (hash, name) assignments parse_dat_file performs,
in processing order (used to state the last-wins property). -/
def datPairs (doc : DatDoc) : List (String × String) :=
  (datEntries doc).flatMap entryPairs

/-- Fold a sequence of dict assignments over an initial dict. -/
def dictSetAll (m : List (String × String)) (ps : List (String × String)) :
    List (String × String) :=
  ps.foldl (fun acc p => dictSet acc p.1 p.2) m

/-! ## DAT matching (src/ui/tabs/dat_rename_tab.py lines 296-333) -/

/-- The per-file matching step of _dat_scan_worker: try CRC32, then MD5,
then SHA1 against the DAT index; on a hit, build the proposed name from the
entry name plus the file's original extension and classify the match. -/
def datMatchFile (m : List (String × String))
    (filename crc32h md5h sha1h : String) : Option (String × String) :=
  let new_name :=
    if (dictLookup m crc32h).isSome then dictLookup m crc32h
    else if (dictLookup m md5h).isSome then dictLookup m md5h
    else if (dictLookup m sha1h).isSome then dictLookup m sha1h
    else none
  match new_name with
  | some n =>
    let ext := (splitext filename).2
    let new_name_with_ext := n ++ ext
    let status :=
      if filename = new_name_with_ext then "Already Correct" else "Match Found"
    some (new_name_with_ext, status)
  | none => none

/-- Decimal digit characters of a natural number, most significant first
(characterizes Nat.repr, the decimal formatting used inside the cache
key's f-string). -/
def natDigits (n : Nat) : List Char :=
  if n < 10 then [Nat.digitChar n]
  else natDigits (n / 10) ++ [Nat.digitChar (n % 10)]
decreasing_by
  exact Nat.div_lt_self (by omega) (by omega)

/-! ## Hash cache (src/ui/tabs/duplicates_tab.py lines 450-484) -/

/-- What os.stat plus open/read expose of one file: current size, current
modification time, and the byte content. -/
structure StatFile where
  size : Nat
  mtime : Nat
  content : List Nat

/-- The composite cache key f-string "path|size|mtime|method". -/
def cacheKey (path : String) (size mtime : Nat) (method : String) : String :=
  path ++ "|" ++ toString size ++ "|" ++ toString mtime ++ "|" ++ method

/-- Mutable state touched by _hash_file: the hash_cache dict and the
cache_hits counter. -/
structure DupCacheState where
  hash_cache : List (String × String)
  cache_hits : Nat
deriving DecidableEq

/-- _hash_file: stat the file, build the composite key, return the cached
digest on a hit (bumping the hit counter), otherwise hash the content with
the selected algorithm, store it under the key and return it.  A stat
failure (missing file) is caught and yields None. -/
def hashFileCached (md5Fn sha1Fn : List Nat → String)
    (fs : String → Option StatFile) (st : DupCacheState)
    (file_path method : String) : Option String × DupCacheState :=
  match fs file_path with
  | none => (none, st)
  | some f =>
    let key := cacheKey file_path f.size f.mtime method
    match dictLookup st.hash_cache key with
    | some d => (some d, { st with cache_hits := st.cache_hits + 1 })
    | none =>
      let digest := if method = "md5" then md5Fn f.content else sha1Fn f.content
      (some digest, { st with hash_cache := dictSet st.hash_cache key digest })

/-! ## Rename planning (src/ui/tabs/rename_tab.py lines 459-518) -/

/-- One candidate rename, as the tuples of rename_plan. -/
structure PlanEntry where
  old_path : String
  new_path : String
  old_name : String
  new_name : String
deriving DecidableEq

/-- Append an entry to the collision group of its key, creating the group at
the end on first sight (Python dict-of-lists semantics). -/
def addToGroup (gs : List (String × List PlanEntry)) (k : String)
    (e : PlanEntry) : List (String × List PlanEntry) :=
  if gs.any (fun g => g.1 = k) then
    gs.map (fun g => if g.1 = k then (g.1, g.2 ++ [e]) else g)
  else gs ++ [(k, [e])]

/-- collision_groups: group the rename plan by lowercased target name, in
insertion order. -/
def collisionGroups (plan : List PlanEntry) :
    List (String × List PlanEntry) :=
  plan.foldl (fun gs e => addToGroup gs (lowerStr e.new_name) e) []

/-- The members recorded for one key (empty when the key has no group). -/
def groupFor (gs : List (String × List PlanEntry)) (k : String) :
    List PlanEntry :=
  match gs.find? (fun g => g.1 = k) with
  | some g => g.2
  | none => []

/-- Re-target one colliding entry with suffix _idx+1 inserted before the
extension, recomputing its path under the current folder. -/
def suffixEntry (current_folder : String) (idx : Nat) (e : PlanEntry) :
    PlanEntry :=
  let parts := splitext e.new_name
  let suffixed_name := parts.1 ++ "_" ++ toString (idx + 1) ++ parts.2
  { e with new_path := current_folder ++ "/" ++ suffixed_name,
           new_name := suffixed_name }

/-- Resolution of one collision group: singleton groups pass unchanged;
otherwise skip drops the group, keep_first keeps its head, suffix re-targets
every member, and an unrecognized strategy appends nothing. -/
def resolveGroup (strategy current_folder : String)
    (group : List PlanEntry) : List PlanEntry :=
  if group.length = 1 then group
  else if strategy = "skip" then []
  else if strategy = "keep_first" then group.take 1
  else if strategy = "suffix" then
    group.enum.map (fun p => suffixEntry current_folder p.1 p.2)
  else []

/-- The final rename plan: concatenation of the resolved collision groups in
group-insertion order. -/
def finalRenamePlan (strategy current_folder : String)
    (plan : List PlanEntry) : List PlanEntry :=
  (collisionGroups plan).foldl
    (fun acc g => acc ++ resolveGroup strategy current_folder g.2) []

/-! ## Rename execution and undo (src/ui/tabs/rename_tab.py) -/

/-- The on-disk state: an association list from path to byte content. -/
abbrev Fs : Type := List (String × List Nat)

def fsGet (fs : Fs) (p : String) : Option (List Nat) :=
  (List.find? (fun q => q.1 = p) fs).map (fun q => q.2)

def fsExists (fs : Fs) (p : String) : Bool :=
  (fsGet fs p).isSome

/-- os.rename: move the content stored at old to new. -/
def fsRename (fs : Fs) (old new : String) : Fs :=
  match fsGet fs old with
  | some c => (List.filter (fun q => q.1 ≠ old) fs) ++ [(new, c)]
  | none => fs

/-- The outcome record _perform_renames accumulates. -/
structure RenameResults where
  success_count : Nat
  error_count : Nat
  errors : List String
  undo_history : List (String × String)
deriving DecidableEq

/-- The per-file loop of _perform_renames (lines 573-655): an existing
destination is recorded as a per-file error and skipped; otherwise the
rename is applied and (new_path, old_path) appended to the undo history; a
vanished source is caught as a per-file error.  The retry/backoff loop for
transient OS errors collapses in this deterministic filesystem model, and
the CUE-sheet side effect is out of scope. -/
def performRenamesAux (fs : Fs) (r : RenameResults) :
    List PlanEntry → Fs × RenameResults
  | [] => (fs, r)
  | e :: rest =>
    if fsExists fs e.new_path then
      performRenamesAux fs
        { r with
          errors := r.errors ++
            [e.old_name ++ " -> " ++ e.new_name ++ ": Destination already exists"],
          error_count := r.error_count + 1 } rest
    else if fsExists fs e.old_path then
      performRenamesAux (fsRename fs e.old_path e.new_path)
        { r with
          success_count := r.success_count + 1,
          undo_history := r.undo_history ++ [(e.new_path, e.old_path)] } rest
    else
      performRenamesAux fs
        { r with
          errors := r.errors ++ [e.old_name ++ ": file not found"],
          error_count := r.error_count + 1 } rest

def performRenames (fs : Fs) (plan : List PlanEntry) : Fs × RenameResults :=
  performRenamesAux fs ⟨0, 0, [], []⟩ plan

/-- The per-entry loop of undo_rename (lines 836-852), iterating the undo
log in recorded order: a missing renamed file or an occupied original
location fails that entry alone; otherwise the rename is reversed. -/
def undoRenameAux (fs : Fs) (success errors : Nat) (errList : List String) :
    List (String × String) → Fs × Nat × Nat × List String
  | [] => (fs, success, errors, errList)
  | (current_path, original_path) :: rest =>
    if ¬ fsExists fs current_path then
      undoRenameAux fs success (errors + 1)
        (errList ++ [current_path ++ ": File not found"]) rest
    else if fsExists fs original_path then
      undoRenameAux fs success (errors + 1)
        (errList ++ [original_path ++ ": Original filename already exists"]) rest
    else
      undoRenameAux (fsRename fs current_path original_path)
        (success + 1) errors errList rest

def undoRename (fs : Fs) (history : List (String × String)) :
    Fs × Nat × Nat × List String :=
  undoRenameAux fs 0 0 [] history

/-! ## Duplicate keep/delete state machine (src/ui/tabs/duplicates_tab.py) -/

inductive DupAction where
  | keep
  | delete
deriving DecidableEq

/-- One displayed member of a duplicate group: the file path carried in the
row's tags, and its current Keep/Delete action. -/
structure DupMember where
  path : String
  action : DupAction
deriving DecidableEq

/-- What os.path.exists / os.path.getsize expose of the disk at the time an
operation runs: whether each path is currently accessible. -/
abbrev DupFs := String → Bool

/-- The action column of a displayed group. -/
def dupActions (g : List DupMember) : List DupAction :=
  g.map DupMember.action

/-- Set the action cell of the i-th displayed row (tree.set on that row). -/
def setAction : List DupMember → Nat → DupAction → List DupMember
  | [], _, _ => []
  | m :: rest, 0, a => { m with action := a } :: rest
  | m :: rest, Nat.succ i, a => m :: setAction rest i a

/-- The member loop of _display_duplicate_groups (lines 566-587): iterate
file_paths with their enumerate index, skip a member whose getsize raises
OSError (the file is inaccessible), and mark the member Keep exactly when
its ORIGINAL index is 0 — so when the first file is inaccessible, no
displayed member is marked Keep. -/
def displayGroupAux (fs : DupFs) : Nat → List String → List DupMember
  | _, [] => []
  | idx, p :: rest =>
    if fs p then
      ⟨p, if idx = 0 then DupAction.keep else DupAction.delete⟩ ::
        displayGroupAux fs (idx + 1) rest
    else displayGroupAux fs (idx + 1) rest

def displayGroup (fs : DupFs) (file_paths : List String) : List DupMember :=
  displayGroupAux fs 0 file_paths

/-- apply_auto_selection on one group (lines 637-747): members whose file
no longer exists are skipped when building file_info (line 644) and so are
NOT re-marked; every surviving member is marked Delete, then the strategy's
chosen surviving member j is marked Keep.  A vanished member keeps its old
action, including a stale Keep. -/
def autoSelect (fs : DupFs) (g : List DupMember) (j : Nat) : List DupMember :=
  setAction
    (g.map (fun m =>
      if fs m.path then { m with action := DupAction.delete } else m))
    j DupAction.keep

/-- _on_dup_tree_click (lines 841-878) at member i, reading and writing
only the action cells (the click handler never consults the disk):
unmarking the Keep member promotes the first Delete sibling; marking a
Delete member flips every kept sibling to Delete, then marks the member
Keep. -/
def toggleAction (g : List DupMember) (i : Nat) : List DupMember :=
  match (dupActions g)[i]? with
  | none => g
  | some DupAction.keep =>
    match (List.range g.length).find?
        (fun j => j ≠ i ∧ (dupActions g)[j]? = some DupAction.delete) with
    | some j => setAction (setAction g j DupAction.keep) i DupAction.delete
    | none => setAction g i DupAction.delete
  | some DupAction.delete =>
    setAction
      (g.map (fun m =>
        if m.action = DupAction.keep then { m with action := DupAction.delete }
        else m))
      i DupAction.keep

/-- The action pattern of a fully displayed group: first member Keep, all
others Delete (what _display_duplicate_groups produces when every file is
accessible). -/
def initialActions (n : Nat) : List DupAction :=
  (List.range n).map (fun i => if i = 0 then DupAction.keep else DupAction.delete)

/-- Action-level effect of auto-selection when every member survives: mark
every member Delete, then the chosen member Keep. -/
def markAllDeleteThenKeep (g : List DupAction) (i : Nat) : List DupAction :=
  (g.map (fun _ => DupAction.delete)).set i DupAction.keep

/-- Action-level effect of one click (the click handler reads and writes
only actions). -/
def toggleActions (g : List DupAction) (i : Nat) : List DupAction :=
  match g[i]? with
  | none => g
  | some DupAction.keep =>
    match (List.range g.length).find?
        (fun j => j ≠ i ∧ g[j]? = some DupAction.delete) with
    | some j => (g.set j DupAction.keep).set i DupAction.delete
    | none => g.set i DupAction.delete
  | some DupAction.delete =>
    (g.map (fun a => if a = DupAction.keep then DupAction.delete else a)).set
      i DupAction.keep

/-- Exactly one member of the group is marked Keep: some index holds Keep
and every other index holds Delete. -/
def UniqueKeep (g : List DupAction) : Prop :=
  ∃ i, i < g.length ∧ g[i]? = some DupAction.keep ∧
    ∀ j, j < g.length → j ≠ i → g[j]? = some DupAction.delete

/-- The group states reachable while every member file stays accessible at
the disk-reading steps: a display of a duplicate group (at least two paths,
all accessible), then any sequence of auto-selections (chosen member
accessible, all members accessible) and clicks. -/
inductive DupReach : List DupMember → Prop where
  | init : ∀ (fs : DupFs) (paths : List String), 2 ≤ paths.length →
      (∀ p ∈ paths, fs p = true) → DupReach (displayGroup fs paths)
  | auto : ∀ (fs : DupFs) (g : List DupMember) (j : Nat), DupReach g →
      j < g.length → (∀ m ∈ g, fs m.path = true) →
      DupReach (autoSelect fs g j)
  | toggle : ∀ g i, DupReach g → i < g.length → DupReach (toggleAction g i)

/-! ## Concrete fixtures used by counterexamples and witnesses -/

/-- A degenerate digest parameter for closed evaluations (the digest content
is irrelevant to the properties evaluated with it). -/
def nullDigest : List Nat → String := fun _ => ""

/-- A file named like a ZIP archive whose bytes are not a valid ZIP. -/
def fsBadZip : String → Option FsObj := fun p =>
  if p = "bad.zip" then some (FsObj.regular [1, 2, 3]) else none

/-- A zip with a text entry before a whitelisted ROM entry, and the same ROM
as a plain file. -/
def fsZipDemo : String → Option FsObj := fun p =>
  if p = "example.zip" then
    some (FsObj.zipArchive [80, 75]
      [("readme.txt", [9, 9]), ("game.nes", [1, 2, 3]), ("extra.txt", [5])])
  else if p = "game.nes" then some (FsObj.regular [1, 2, 3])
  else if p = "only_doc.zip" then
    some (FsObj.zipArchive [80, 75] [("docs/", []), ("readme.txt", [9, 9])])
  else none

/-- A DAT document with a <machine> carrying hash "aa" before a <game>
carrying the same hash "aa" in document order. -/
def datDocMixed : DatDoc :=
  ⟨[⟨"machine", "Mach", [⟨"aa", "", ""⟩]⟩,
    ⟨"game", "Gm", [⟨"aa", "", ""⟩]⟩]⟩

/-- A DAT index in which CRC32 key "c1" and MD5 key "m1" name different
entries. -/
def datMapDemo : List (String × String) :=
  [("c1", "Game A"), ("m1", "Game B")]

/-- Three candidates colliding on target Game.zip (rename plan tuples as
built with new_path = join(folder, new_name), folder "f"). -/
def planGameCollision : List PlanEntry :=
  [⟨"f/a.zip", "f/Game.zip", "a.zip", "Game.zip"⟩,
   ⟨"f/b.zip", "f/Game.zip", "b.zip", "Game.zip"⟩,
   ⟨"f/c.zip", "f/Game.zip", "c.zip", "Game.zip"⟩]

/-- A batch where one candidate already targets Game_1.zip while two others
collide on Game.zip: the suffix strategy then duplicates target
f/Game_1.zip across groups. -/
def planSuffixClash : List PlanEntry :=
  [⟨"f/a.zip", "f/Game_1.zip", "a.zip", "Game_1.zip"⟩,
   ⟨"f/b.zip", "f/Game.zip", "b.zip", "Game.zip"⟩,
   ⟨"f/c.zip", "f/Game.zip", "c.zip", "Game.zip"⟩]

/-- The three source files of planSuffixClash on disk. -/
def fsSuffixClash : Fs :=
  [("f/a.zip", [1]), ("f/b.zip", [2]), ("f/c.zip", [3])]

/-- A two-file filesystem in which the rename target "t" already exists. -/
def fsTargetTaken : Fs := [("x", [1]), ("t", [2])]

/-- A one-file filesystem holding A.zip, used for the undo round trip. -/
def fsUndoDemo : Fs := [("A.zip", [7, 7, 7])]

/-- The single-entry plan renaming A.zip to B.zip. -/
def planUndoDemo : List PlanEntry :=
  [⟨"A.zip", "B.zip", "A.zip", "B.zip"⟩]

/-- A cached-state fixture: one digest stored for path "r.nes" at size 3,
mtime 100, method sha1. -/
def cacheStateDemo : DupCacheState :=
  ⟨[(cacheKey "r.nes" 3 100 "sha1", "deadbeef")], 0⟩

/-- The file "r.nes" as it was when cacheStateDemo was populated. -/
def fsCacheHit : String → Option StatFile := fun p =>
  if p = "r.nes" then some ⟨3, 100, [1, 2, 3]⟩ else none

/-- The file "r.nes" after a mutation that changed its mtime (and content). -/
def fsCacheMut : String → Option StatFile := fun p =>
  if p = "r.nes" then some ⟨3, 101, [4, 5, 6]⟩ else none

/-- A concrete stand-in digest: the first byte, in decimal (enough to tell
the fixture contents apart). -/
def headDigest : List Nat → String := fun l => toString (l.headD 0)

/-- "r.nes" at three successive states: (size 3, mtime 100, bytes 1 2 3),
then (3, 101, bytes 5 5 5), then mutated BACK to mtime 100 with fresh bytes
9 9 9. -/
def fsCacheStepA : String → Option StatFile := fun p =>
  if p = "r.nes" then some ⟨3, 100, [1, 2, 3]⟩ else none

def fsCacheStepB : String → Option StatFile := fun p =>
  if p = "r.nes" then some ⟨3, 101, [5, 5, 5]⟩ else none

def fsCacheStepC : String → Option StatFile := fun p =>
  if p = "r.nes" then some ⟨3, 100, [9, 9, 9]⟩ else none

/-- The cache state after hashing "r.nes" in its first two states. -/
def cacheAfterTwo : DupCacheState :=
  (hashFileCached nullDigest headDigest fsCacheStepB
    (hashFileCached nullDigest headDigest fsCacheStepA ⟨[], 0⟩
      "r.nes" "sha1").2
    "r.nes" "sha1").2

/-- A disk on which every file is accessible. -/
def fsAll : DupFs := fun _ => true

/-- A disk from which "a.nes" has vanished. -/
def fsNoA : DupFs := fun p => decide (p ≠ "a.nes")

/-- Whether a hashing call succeeded. -/
def hashOk : Except String (String × String × String) → Bool
  | Except.ok _ => true
  | Except.error _ => false

/-- The whitelisted-non-directory test of the zip entry loop, as a
predicate on (name, content) pairs. -/
def zipRomPred (e : String × List Nat) : Bool :=
  (!(strEndsWith e.1 "/")) &&
    ROM_EXTENSIONS_WHITELIST.contains (lowerStr (splitext e.1).2)

/-! # Theorems -/

/-! ## Dictionary lemmas -/

theorem dictLookup_nil (h : String) : dictLookup [] h = none := rfl

theorem dictLookup_cons (a : String × String) (t : List (String × String))
    (h : String) :
    dictLookup (a :: t) h = if a.1 = h then some a.2 else dictLookup t h := by
  simp only [dictLookup, List.find?_cons]
  by_cases hh : a.1 = h
  · simp [hh]
  · simp [hh]

theorem dictLookup_map_update (m : List (String × String)) (k v h : String) :
    dictLookup (m.map (fun p => if p.1 = k then (k, v) else p)) h =
      if h = k then (if m.any (fun p => p.1 = k) then some v else none)
      else dictLookup m h := by
  induction m with
  | nil => simp [dictLookup]
  | cons a t ih =>
    simp only [List.map_cons, List.any_cons]
    by_cases hak : a.1 = k
    · have hhead : (if a.1 = k then (k, v) else a) = (k, v) := if_pos hak
      rw [hhead, dictLookup_cons, dictLookup_cons, ih]
      by_cases hhk : h = k
      · have hkh : k = h := hhk.symm
        simp [hkh, hak]
      · have hkh : ¬ k = h := fun e => hhk e.symm
        have hah : ¬ a.1 = h := by rw [hak]; exact hkh
        simp [hkh, hah, hhk]
    · have hhead : (if a.1 = k then (k, v) else a) = a := if_neg hak
      rw [hhead, dictLookup_cons, dictLookup_cons, ih]
      by_cases hah : a.1 = h
      · have hhk : ¬ h = k := by rw [← hah]; exact fun e => hak e
        simp [hah, hhk]
      · by_cases hhk : h = k
        · have hd : decide (a.1 = k) = false := by simp [hak]
          simp only [hd, Bool.false_or]
          simp [hah, hhk]
          exact fun e => absurd e hak
        · simp [hah, hhk]

theorem dictLookup_append_single (m : List (String × String)) (k v h : String) :
    dictLookup (m ++ [(k, v)]) h =
      match dictLookup m h with
      | some d => some d
      | none => if k = h then some v else none := by
  simp only [dictLookup, List.find?_append]
  cases hfm : List.find? (fun p => p.1 = h) m with
  | some p => simp [Option.or]
  | none =>
    simp only [Option.or, List.find?_cons]
    by_cases hkh : k = h
    · simp [hkh]
    · simp [hkh, List.find?_nil]

/-- Lookup after one Python dict assignment: the assigned key now maps to
the assigned value, every other key is untouched. -/
theorem dictLookup_dictSet (m : List (String × String)) (k v h : String) :
    dictLookup (dictSet m k v) h = if h = k then some v else dictLookup m h := by
  unfold dictSet
  by_cases hany : m.any (fun p => p.1 = k)
  · rw [if_pos hany, dictLookup_map_update]
    by_cases hhk : h = k
    · simp [hhk, hany]
    · simp [hhk]
  · rw [if_neg hany, dictLookup_append_single]
    by_cases hhk : h = k
    · subst hhk
      have hnone : dictLookup m h = none := by
        simp only [dictLookup, Option.map_eq_none']
        rw [List.find?_eq_none]
        intro p hp hph
        exact hany (List.any_eq_true.mpr ⟨p, hp, by simpa using hph⟩)
      simp [hnone]
    · have hkh : ¬ k = h := fun e => hhk e.symm
      cases hfm : dictLookup m h with
      | some d => simp [hhk]
      | none => simp [hkh, hhk]

/-! ## C3: should_include_file precedence -/

/-- C3: should_include_file in rom_only mode follows exactly the spec's
precedence (excluded folder, else whitelist, else ".zip", else blacklist,
else exclude); "sonic.md" is included in rom_only mode although ".md" is
blacklisted; all_files mode includes everything. -/
theorem C3_should_include_file_precedence :
    (∀ p, should_include_file p "rom_only" = rom_only_spec p) ∧
    should_include_file "sonic.md" "rom_only" = true ∧
    FILE_EXTENSIONS_BLACKLIST.contains ".md" = true ∧
    (∀ p, should_include_file p "all_files" = true) := by
  refine ⟨fun p => ?_, by decide, by decide, fun p => ?_⟩
  · simp only [should_include_file, rom_only_spec]
    rw [if_neg (by decide)]
  · simp [should_include_file]

/-! ## C2: DAT matching precedence and proposed-name construction -/

/-- C2: DAT matching tries CRC32, then MD5, then SHA1, returning the first
hit; the proposed name is the matched name plus the file's original
extension, and it is reported "Already Correct" exactly when it equals the
current filename; with no hit on any digest there is no match. -/
theorem C2_dat_match_precedence (m : List (String × String))
    (filename c5 m5 s5 : String) :
    (∀ n, dictLookup m c5 = some n →
      datMatchFile m filename c5 m5 s5 =
        some (n ++ (splitext filename).2,
          if filename = n ++ (splitext filename).2 then "Already Correct"
          else "Match Found")) ∧
    (∀ n, dictLookup m c5 = none → dictLookup m m5 = some n →
      datMatchFile m filename c5 m5 s5 =
        some (n ++ (splitext filename).2,
          if filename = n ++ (splitext filename).2 then "Already Correct"
          else "Match Found")) ∧
    (∀ n, dictLookup m c5 = none → dictLookup m m5 = none →
      dictLookup m s5 = some n →
      datMatchFile m filename c5 m5 s5 =
        some (n ++ (splitext filename).2,
          if filename = n ++ (splitext filename).2 then "Already Correct"
          else "Match Found")) ∧
    (dictLookup m c5 = none → dictLookup m m5 = none →
      dictLookup m s5 = none → datMatchFile m filename c5 m5 s5 = none) := by
  refine ⟨fun n hc => ?_, fun n hc hm => ?_, fun n hc hm hs => ?_,
    fun hc hm hs => ?_⟩ <;>
    simp [datMatchFile, hc, *]

/-- Witness for C2 on a concrete index where the CRC32 digest and the MD5
digest name different DAT entries: the CRC32 match wins and the original
extension's case is preserved. -/
theorem C2_dat_match_precedence_witness :
    datMatchFile datMapDemo "game.NES" "c1" "m1" "s1" =
      some ("Game A.NES", "Match Found") := by
  have h := (C2_dat_match_precedence datMapDemo "game.NES" "c1" "m1" "s1").1
    "Game A" (by decide)
  simpa using h

/-! ## C1: hashing the ROM payload inside a ZIP archive -/

/-- The source's entry-selection loop is List.find? with the
whitelisted-non-directory predicate: it picks the FIRST entry of the name
list that is not a directory and whose lowercased extension is
whitelisted. -/
theorem findRomEntry_eq_find? (entries : List (String × List Nat)) :
    findRomEntry entries = entries.find? zipRomPred := by
  induction entries with
  | nil => rfl
  | cons e rest ih =>
    rw [List.find?_cons]
    by_cases h1 : strEndsWith e.1 "/" = true
    · have hp : zipRomPred e = false := by simp [zipRomPred, h1]
      rw [hp]
      simpa [findRomEntry, h1] using ih
    · by_cases h2 : lowerStr (splitext e.1).2 ∈ ROM_EXTENSIONS_WHITELIST
      · have hp : zipRomPred e = true := by simp [zipRomPred, h1, h2]
        rw [hp]
        simp [findRomEntry, h1, h2]
      · have hp : zipRomPred e = false := by simp [zipRomPred, h1, h2]
        rw [hp]
        simpa [findRomEntry, h1, h2] using ih

/-- A plain file's digest triple is the triple of its raw bytes, whatever
its name. -/
theorem calculate_hashes_regular (md5Fn sha1Fn : List Nat → String)
    (fs : String → Option FsObj) (p : String) (c : List Nat)
    (hfs : fs p = some (FsObj.regular c)) :
    calculate_file_hashes md5Fn sha1Fn fs p =
      Except.ok (hashStream md5Fn sha1Fn c) := by
  by_cases hz : strEndsWith (lowerStr p) ".zip" = true <;>
    simp [calculate_file_hashes, hz, hfs]

/-- C1: on a valid ZIP whose name ends in ".zip", calculate_file_hashes
selects the first non-directory entry with a whitelisted lowercased
extension and returns the digest triple of that entry's decompressed
content, so it agrees with hashing a plain file holding the same bytes; if
no such entry exists the call fails with the "no ROM found" error. -/
theorem C1_zip_payload_hashing (md5Fn sha1Fn : List Nat → String)
    (fs fs2 : String → Option FsObj) (p p2 : String) (raw : List Nat)
    (entries : List (String × List Nat)) :
    (∀ e, strEndsWith (lowerStr p) ".zip" = true →
      fs p = some (FsObj.zipArchive raw entries) →
      entries.find? zipRomPred = some e →
      calculate_file_hashes md5Fn sha1Fn fs p =
        Except.ok (hashStream md5Fn sha1Fn e.2) ∧
      (fs2 p2 = some (FsObj.regular e.2) →
        calculate_file_hashes md5Fn sha1Fn fs p =
          calculate_file_hashes md5Fn sha1Fn fs2 p2)) ∧
    (strEndsWith (lowerStr p) ".zip" = true →
      fs p = some (FsObj.zipArchive raw entries) →
      entries.find? zipRomPred = none →
      calculate_file_hashes md5Fn sha1Fn fs p =
        Except.error ("No ROM file found in zip: " ++ p)) := by
  constructor
  · intro e hz hfs hfind
    have hok : calculate_file_hashes md5Fn sha1Fn fs p =
        Except.ok (hashStream md5Fn sha1Fn e.2) := by
      simp [calculate_file_hashes, hz, hfs, findRomEntry_eq_find?, hfind]
    refine ⟨hok, fun hfs2 => ?_⟩
    rw [hok, calculate_hashes_regular md5Fn sha1Fn fs2 p2 e.2 hfs2]
  · intro hz hfs hfind
    simp [calculate_file_hashes, hz, hfs, findRomEntry_eq_find?, hfind]

/-- Witness for C1: example.zip (readme.txt before game.nes) hashes to the
digest triple of game.nes's bytes and agrees with hashing game.nes directly;
only_doc.zip (a directory and a text file) fails with the "no ROM found"
error. -/
theorem C1_zip_payload_hashing_witness :
    calculate_file_hashes nullDigest nullDigest fsZipDemo "example.zip" =
      Except.ok (hashStream nullDigest nullDigest [1, 2, 3]) ∧
    calculate_file_hashes nullDigest nullDigest fsZipDemo "example.zip" =
      calculate_file_hashes nullDigest nullDigest fsZipDemo "game.nes" ∧
    calculate_file_hashes nullDigest nullDigest fsZipDemo "only_doc.zip" =
      Except.error ("No ROM file found in zip: " ++ "only_doc.zip") := by
  have h1 := (C1_zip_payload_hashing nullDigest nullDigest fsZipDemo fsZipDemo
    "example.zip" "game.nes" [80, 75]
    [("readme.txt", [9, 9]), ("game.nes", [1, 2, 3]), ("extra.txt", [5])]).1
    ("game.nes", [1, 2, 3]) (by decide) (by rfl) (by decide)
  have h2 := (C1_zip_payload_hashing nullDigest nullDigest fsZipDemo fsZipDemo
    "only_doc.zip" "x" [80, 75] [("docs/", []), ("readme.txt", [9, 9])]).2
    (by decide) (by rfl) (by decide)
  exact ⟨h1.1, h1.2 (by rfl), h2⟩

/-! ## C7: a ".zip" path that is not a valid ZIP archive -/

/-- C7 counterexample: for a path named "bad.zip" holding bytes that are not
a valid ZIP archive, calculate_file_hashes silently succeeds (it hashes the
raw bytes), instead of failing with a hard error as the claim states. -/
theorem C7_counterexample :
    hashOk (calculate_file_hashes nullDigest nullDigest fsBadZip "bad.zip") =
      true := by
  rfl

/-- C7 amended: a path ending in ".zip" whose content is not a valid ZIP
archive (zipfile.is_zipfile is false) is hashed as a regular file: the call
returns the digest triple of the raw bytes and no error. -/
theorem C7_amended (md5Fn sha1Fn : List Nat → String)
    (fs : String → Option FsObj) (p : String) (c : List Nat)
    (hp : strEndsWith (lowerStr p) ".zip" = true)
    (hfs : fs p = some (FsObj.regular c)) :
    calculate_file_hashes md5Fn sha1Fn fs p =
      Except.ok (hashStream md5Fn sha1Fn c) := by
  simp [calculate_file_hashes, hp, hfs]

/-- Witness for C7 amended at the concrete "bad.zip" fixture. -/
theorem C7_amended_witness :
    calculate_file_hashes nullDigest nullDigest fsBadZip "bad.zip" =
      Except.ok (hashStream nullDigest nullDigest [1, 2, 3]) :=
  C7_amended nullDigest nullDigest fsBadZip "bad.zip" [1, 2, 3]
    (by decide) (by rfl)

/-! ## C10: the flat DAT hash index -/

theorem dictSetAll_nil (m : List (String × String)) : dictSetAll m [] = m := rfl

theorem dictSetAll_cons (m : List (String × String)) (q : String × String)
    (ps : List (String × String)) :
    dictSetAll m (q :: ps) = dictSetAll (dictSet m q.1 q.2) ps := rfl

theorem dictSetAll_append (m : List (String × String))
    (ps qs : List (String × String)) :
    dictSetAll m (ps ++ qs) = dictSetAll (dictSetAll m ps) qs := by
  simp [dictSetAll, List.foldl_append]

/-- Lookup in a dict built by a sequence of assignments: the LAST assignment
of the key wins, and a key never assigned falls through to the initial
dict. -/
theorem dictLookup_dictSetAll (ps : List (String × String))
    (m : List (String × String)) (h : String) :
    dictLookup (dictSetAll m ps) h =
      match ps.reverse.find? (fun p => p.1 = h) with
      | some p => some p.2
      | none => dictLookup m h := by
  induction ps generalizing m with
  | nil => simp [dictSetAll]
  | cons q ps ih =>
    rw [dictSetAll_cons, ih, List.reverse_cons, List.find?_append]
    cases hrev : ps.reverse.find? (fun p => p.1 = h) with
    | some p => simp [Option.or]
    | none =>
      simp only [Option.or, List.find?_cons, dictLookup_dictSet]
      by_cases hq : q.1 = h
      · have hd : decide (q.1 = h) = true := by simp [hq]
        simp [hd, hq.symm]
      · have hq2 : ¬ h = q.1 := fun e => hq e.symm
        simp [hq, hq2]

theorem dictSetAll_single (m : List (String × String)) (q : String × String) :
    dictSetAll m [q] = dictSet m q.1 q.2 := rfl

theorem insertRomHashes_eq_dictSetAll (name : String)
    (acc : List (String × String)) (rom : RomElem) :
    insertRomHashes name acc rom = dictSetAll acc (romPairs name rom) := by
  unfold insertRomHashes romPairs
  rw [dictSetAll_append, dictSetAll_append]
  by_cases hc : lowerStr rom.crc ≠ "" <;>
    by_cases hm : lowerStr rom.md5 ≠ "" <;>
    by_cases hs : lowerStr rom.sha1 ≠ "" <;>
    simp [hc, hm, hs, dictSetAll_nil, dictSetAll_single]

theorem foldl_insertRomHashes (name : String) (roms : List RomElem)
    (acc : List (String × String)) :
    roms.foldl (insertRomHashes name) acc =
      dictSetAll acc (roms.flatMap (romPairs name)) := by
  induction roms generalizing acc with
  | nil => simp [dictSetAll]
  | cons r rs ih =>
    simp only [List.foldl_cons, List.flatMap_cons, dictSetAll_append]
    rw [insertRomHashes_eq_dictSetAll, ih]

/-- parse_dat_file is the fold of its assignment sequence over the empty
dict. -/
theorem parse_dat_file_eq_dictSetAll (doc : DatDoc) :
    parse_dat_file doc = dictSetAll [] (datPairs doc) := by
  unfold parse_dat_file datPairs
  generalize datEntries doc = entries
  suffices hgen : ∀ acc : List (String × String),
      entries.foldl
        (fun acc entry =>
          if entry.name = "" then acc
          else entry.roms.foldl (insertRomHashes entry.name) acc) acc =
        dictSetAll acc (entries.flatMap entryPairs) by
    exact hgen []
  induction entries with
  | nil => intro acc; simp [dictSetAll]
  | cons e es ih =>
    intro acc
    simp only [List.foldl_cons, List.flatMap_cons, dictSetAll_append]
    by_cases hname : e.name = ""
    · rw [if_pos hname, ih]
      have hpe : entryPairs e = [] := by simp [entryPairs, hname]
      rw [hpe, dictSetAll_nil]
    · rw [if_neg hname, foldl_insertRomHashes, ih]
      have hpe : entryPairs e = e.roms.flatMap (romPairs e.name) := by
        simp [entryPairs, hname]
      rw [hpe]

/-- Every key in the assignment sequence is a nonempty string. -/
theorem datPairs_key_ne_empty (doc : DatDoc) (p : String × String)
    (hp : p ∈ datPairs doc) : p.1 ≠ "" := by
  simp only [datPairs, List.mem_flatMap] at hp
  obtain ⟨entry, _hentry, hp⟩ := hp
  simp only [entryPairs] at hp
  by_cases hname : entry.name = ""
  · simp [hname] at hp
  · rw [if_neg hname] at hp
    simp only [List.mem_flatMap] at hp
    obtain ⟨rom, _hrom, hp⟩ := hp
    simp only [romPairs, List.mem_append] at hp
    rcases hp with (hp | hp) | hp
    · by_cases hx : lowerStr rom.crc ≠ ""
      · rw [if_pos hx] at hp
        simp only [List.mem_singleton] at hp
        rw [hp]
        exact hx
      · rw [if_neg hx] at hp
        simp at hp
    · by_cases hx : lowerStr rom.md5 ≠ ""
      · rw [if_pos hx] at hp
        simp only [List.mem_singleton] at hp
        rw [hp]
        exact hx
      · rw [if_neg hx] at hp
        simp at hp
    · by_cases hx : lowerStr rom.sha1 ≠ ""
      · rw [if_pos hx] at hp
        simp only [List.mem_singleton] at hp
        rw [hp]
        exact hx
      · rw [if_neg hx] at hp
        simp at hp

/-- C10 counterexample: in datDocMixed the <machine> named "Mach" precedes
the <game> named "Gm" in document order and both carry hash "aa", so the
entry processed LAST IN DOCUMENT ORDER is "Gm"; the code nevertheless maps
"aa" to "Mach", because it processes all <game> elements before all
<machine> elements. -/
theorem C10_counterexample :
    dictLookup (parse_dat_file datDocMixed) "aa" = some "Mach" ∧
    (datDocMixed.children.getLast?).map DatEntry.name = some "Gm" ∧
    (datDocMixed.children.map (fun e => e.roms.map RomElem.crc)) =
      [["aa"], ["aa"]] ∧
    "Mach" ≠ "Gm" := by
  refine ⟨by decide, by decide, by decide, by decide⟩

/-- C10 amended: the index is one flat string-keyed dict whose insertion is
last-wins with respect to the PROCESSING order (all <game> entries in
document order, then all <machine> entries in document order), and the empty
string is never a key. -/
theorem C10_dat_index_last_wins (doc : DatDoc) (h : String) :
    dictLookup (parse_dat_file doc) h =
      ((datPairs doc).reverse.find? (fun p => p.1 = h)).map (fun p => p.2) ∧
    dictLookup (parse_dat_file doc) "" = none := by
  constructor
  · rw [parse_dat_file_eq_dictSetAll, dictLookup_dictSetAll]
    cases hrev : (datPairs doc).reverse.find? (fun p => p.1 = h) with
    | some p => simp
    | none => simp [dictLookup]
  · rw [parse_dat_file_eq_dictSetAll, dictLookup_dictSetAll]
    have hnone : (datPairs doc).reverse.find? (fun p => p.1 = "") = none := by
      rw [List.find?_eq_none]
      intro p hp
      have := datPairs_key_ne_empty doc p (List.mem_reverse.mp hp)
      simpa using this
    simp [hnone, dictLookup]

/-! ## C5: collision grouping and resolution -/

theorem groupFor_nil (k : String) : groupFor [] k = [] := rfl

theorem groupFor_cons (a : String × List PlanEntry)
    (t : List (String × List PlanEntry)) (k : String) :
    groupFor (a :: t) k = if a.1 = k then a.2 else groupFor t k := by
  simp only [groupFor, List.find?_cons]
  by_cases h : a.1 = k
  · simp [h]
  · simp [h]

theorem groupFor_map_update (gs : List (String × List PlanEntry)) (k : String)
    (e : PlanEntry) (k' : String) :
    groupFor (gs.map (fun g => if g.1 = k then (g.1, g.2 ++ [e]) else g)) k' =
      if k' = k then
        (if gs.any (fun g => g.1 = k) then groupFor gs k ++ [e] else [])
      else groupFor gs k' := by
  induction gs with
  | nil => simp [groupFor_nil]
  | cons a t ih =>
    simp only [List.map_cons, List.any_cons]
    by_cases hak : a.1 = k
    · rw [if_pos hak]
      simp only [groupFor_cons, ih]
      by_cases hkk : k' = k
      · have hak2 : a.1 = k' := by rw [hak, hkk]
        have hd : decide (a.1 = k) = true := by simp [hak]
        simp [hak2, hkk, hd, hak]
      · have hak2 : ¬ a.1 = k' := by rw [hak]; exact fun e2 => hkk e2.symm
        simp [hak2, hkk]
    · rw [if_neg hak]
      simp only [groupFor_cons, ih]
      have hd : decide (a.1 = k) = false := by simp [hak]
      simp only [hd, Bool.false_or]
      by_cases hak2 : a.1 = k'
      · have hkk : ¬ k' = k := by rw [← hak2]; exact hak
        simp [hak2, hkk]
      · by_cases hkk : k' = k
        · simp [hak2, hkk, hak]
        · simp [hak2, hkk]

theorem groupFor_addToGroup (gs : List (String × List PlanEntry)) (k : String)
    (e : PlanEntry) (k' : String) :
    groupFor (addToGroup gs k e) k' =
      if k' = k then groupFor gs k ++ [e] else groupFor gs k' := by
  unfold addToGroup
  by_cases hany : gs.any (fun g => g.1 = k)
  · rw [if_pos hany, groupFor_map_update, if_pos hany]
  · rw [if_neg hany]
    have hmiss : groupFor gs k = [] := by
      unfold groupFor
      rw [List.find?_eq_none.mpr]
      intro g hg hgk
      exact hany (List.any_eq_true.mpr ⟨g, hg, hgk⟩)
    by_cases hkk : k' = k
    · subst hkk
      unfold groupFor
      rw [List.find?_append, List.find?_eq_none.mpr, Option.none_or,
        List.find?_cons]
      · simp [hmiss]
      · intro g hg hgk
        exact hany (List.any_eq_true.mpr ⟨g, hg, hgk⟩)
    · unfold groupFor
      rw [List.find?_append]
      have hlast : List.find? (fun g => g.1 = k') [(k, [e])] = none := by
        rw [List.find?_eq_none]
        intro g hg
        simp only [List.mem_singleton] at hg
        rw [hg]
        simpa using fun e2 => hkk e2.symm
      rw [hlast, Option.or_none, if_neg hkk]

/-- collision_groups records, under each lowercased target name, exactly the
plan entries with that target, in plan order. -/
theorem groupFor_collisionGroups (plan : List PlanEntry) (k : String) :
    groupFor (collisionGroups plan) k =
      plan.filter (fun e => lowerStr e.new_name = k) := by
  suffices hgen : ∀ gs,
      groupFor (plan.foldl (fun gs e => addToGroup gs (lowerStr e.new_name) e) gs) k =
        groupFor gs k ++ plan.filter (fun e => lowerStr e.new_name = k) by
    have h0 := hgen []
    simpa [collisionGroups, groupFor_nil] using h0
  induction plan with
  | nil => intro gs; simp [collisionGroups]
  | cons e rest ih =>
    intro gs
    simp only [List.foldl_cons, List.filter_cons]
    rw [ih, groupFor_addToGroup]
    by_cases hk : lowerStr e.new_name = k
    · have hd : decide (lowerStr e.new_name = k) = true := by simp [hk]
      simp [hd, hk.symm]
    · have hk2 : ¬ k = lowerStr e.new_name := fun e2 => hk e2.symm
      have hd : decide (lowerStr e.new_name = k) = false := by simp [hk]
      simp [hk2, hd]

theorem finalRenamePlan_eq_flatMap (strategy folder : String)
    (plan : List PlanEntry) :
    finalRenamePlan strategy folder plan =
      (collisionGroups plan).flatMap
        (fun g => resolveGroup strategy folder g.2) := by
  unfold finalRenamePlan
  generalize collisionGroups plan = gs
  suffices hgen : ∀ acc : List PlanEntry,
      gs.foldl (fun acc g => acc ++ resolveGroup strategy folder g.2) acc =
        acc ++ gs.flatMap (fun g => resolveGroup strategy folder g.2) by
    simpa using hgen []
  induction gs with
  | nil => intro acc; simp
  | cons g rest ih =>
    intro acc
    simp [List.foldl_cons, ih]

/-- C5: the rename batch is grouped by lowercased target name (each group
holding exactly the candidates with that target, in directory order) and the
final plan concatenates the per-group resolutions: singleton groups pass
unchanged, skip drops every member of a colliding group, keep_first keeps
only the group's first member, suffix keeps every member with _1, _2, ...
inserted before the extension in group order; three files colliding on
Game.zip become exactly Game_1.zip, Game_2.zip, Game_3.zip. -/
theorem C5_collision_resolution :
    (∀ plan k, groupFor (collisionGroups plan) k =
      plan.filter (fun e => lowerStr e.new_name = k)) ∧
    (∀ strategy folder plan, finalRenamePlan strategy folder plan =
      (collisionGroups plan).flatMap
        (fun g => resolveGroup strategy folder g.2)) ∧
    (∀ strategy folder g, g.length = 1 →
      resolveGroup strategy folder g = g) ∧
    (∀ folder g, 2 ≤ g.length → resolveGroup "skip" folder g = []) ∧
    (∀ folder g, 2 ≤ g.length →
      resolveGroup "keep_first" folder g = g.take 1) ∧
    (∀ folder g, 2 ≤ g.length →
      resolveGroup "suffix" folder g =
        g.enum.map (fun p => suffixEntry folder p.1 p.2)) ∧
    (finalRenamePlan "suffix" "f" planGameCollision).map
        (fun e => e.new_name) = ["Game_1.zip", "Game_2.zip", "Game_3.zip"] ∧
    finalRenamePlan "skip" "f" planGameCollision = [] ∧
    finalRenamePlan "keep_first" "f" planGameCollision =
      [⟨"f/a.zip", "f/Game.zip", "a.zip", "Game.zip"⟩] := by
  refine ⟨groupFor_collisionGroups, finalRenamePlan_eq_flatMap,
    fun strategy folder g h1 => ?_, fun folder g h2 => ?_,
    fun folder g h2 => ?_, fun folder g h2 => ?_,
    by decide, by decide, by decide⟩
  · unfold resolveGroup
    rw [if_pos h1]
  · unfold resolveGroup
    rw [if_neg (by omega), if_pos rfl]
  · unfold resolveGroup
    rw [if_neg (by omega), if_neg (by decide), if_pos rfl]
  · unfold resolveGroup
    rw [if_neg (by omega), if_neg (by decide), if_neg (by decide), if_pos rfl]

/-- Witness for C5 at a concrete three-way collision group. -/
theorem C5_collision_resolution_witness :
    2 ≤ planGameCollision.length ∧
    resolveGroup "skip" "f" planGameCollision = [] :=
  ⟨by decide, C5_collision_resolution.2.2.2.1 "f" planGameCollision (by decide)⟩

/-! ## Execution and undo step lemmas (shared) -/

theorem performStep_dest_exists (fs : Fs) (r : RenameResults) (e : PlanEntry)
    (rest : List PlanEntry) (h : fsExists fs e.new_path = true) :
    performRenamesAux fs r (e :: rest) =
      performRenamesAux fs
        { r with
          errors := r.errors ++
            [e.old_name ++ " -> " ++ e.new_name ++ ": Destination already exists"],
          error_count := r.error_count + 1 } rest := by
  conv_lhs => rw [performRenamesAux]
  rw [if_pos h]

theorem performStep_success (fs : Fs) (r : RenameResults) (e : PlanEntry)
    (rest : List PlanEntry) (h1 : fsExists fs e.new_path = false)
    (h2 : fsExists fs e.old_path = true) :
    performRenamesAux fs r (e :: rest) =
      performRenamesAux (fsRename fs e.old_path e.new_path)
        { r with
          success_count := r.success_count + 1,
          undo_history := r.undo_history ++ [(e.new_path, e.old_path)] } rest := by
  conv_lhs => rw [performRenamesAux]
  rw [if_neg (by simp [h1]), if_pos h2]

theorem undoStep_missing (fs : Fs) (s ec : Nat) (errs : List String)
    (cur orig : String) (rest : List (String × String))
    (h : fsExists fs cur = false) :
    undoRenameAux fs s ec errs ((cur, orig) :: rest) =
      undoRenameAux fs s (ec + 1) (errs ++ [cur ++ ": File not found"]) rest := by
  conv_lhs => rw [undoRenameAux]
  rw [if_pos (by simp [h])]

theorem undoStep_occupied (fs : Fs) (s ec : Nat) (errs : List String)
    (cur orig : String) (rest : List (String × String))
    (h1 : fsExists fs cur = true) (h2 : fsExists fs orig = true) :
    undoRenameAux fs s ec errs ((cur, orig) :: rest) =
      undoRenameAux fs s (ec + 1)
        (errs ++ [orig ++ ": Original filename already exists"]) rest := by
  conv_lhs => rw [undoRenameAux]
  rw [if_neg (by simp [h1]), if_pos h2]

theorem undoStep_success (fs : Fs) (s ec : Nat) (errs : List String)
    (cur orig : String) (rest : List (String × String))
    (h1 : fsExists fs cur = true) (h2 : fsExists fs orig = false) :
    undoRenameAux fs s ec errs ((cur, orig) :: rest) =
      undoRenameAux (fsRename fs cur orig) (s + 1) ec errs rest := by
  conv_lhs => rw [undoRenameAux]
  rw [if_neg (by simp [h1]), if_neg (by simp [h2])]

/-! ## C6: the final plan is not collision-free against itself or the disk -/

/-- C6 counterexample: with the suffix strategy, a batch in which one
candidate already targets Game_1.zip while two others collide on Game.zip
yields a final plan containing f/Game_1.zip twice, violating the claimed
invariant that no two entries of the final plan share a new_path. -/
theorem C6_counterexample :
    ¬ ((finalRenamePlan "suffix" "f" planSuffixClash).map
        (fun e => e.new_path)).Nodup := by
  decide

/-- C6 amended: planning resolves collisions only within the batch's own
target groups and never consults the disk; at execution time _perform_renames
checks each entry's destination, records "Destination already exists" as a
per-file error, leaves the filesystem unchanged for that entry and continues
with the rest (a free destination with an existing source is renamed and
logged).  On the suffix-clash batch this surfaces exactly one such runtime
error. -/
theorem C6_collision_runtime_error :
    (∀ fs r e rest, fsExists fs e.new_path = true →
      performRenamesAux fs r (e :: rest) =
        performRenamesAux fs
          { r with
            errors := r.errors ++
              [e.old_name ++ " -> " ++ e.new_name ++ ": Destination already exists"],
            error_count := r.error_count + 1 } rest) ∧
    (∀ fs r e rest, fsExists fs e.new_path = false →
      fsExists fs e.old_path = true →
      performRenamesAux fs r (e :: rest) =
        performRenamesAux (fsRename fs e.old_path e.new_path)
          { r with
            success_count := r.success_count + 1,
            undo_history := r.undo_history ++ [(e.new_path, e.old_path)] } rest) ∧
    (performRenames fsSuffixClash
        (finalRenamePlan "suffix" "f" planSuffixClash)).2.errors =
      ["b.zip -> Game_1.zip: Destination already exists"] ∧
    (performRenames fsSuffixClash
        (finalRenamePlan "suffix" "f" planSuffixClash)).2.success_count = 2 := by
  exact ⟨performStep_dest_exists, performStep_success, by decide, by decide⟩

/-- Witness for C6 amended: renaming "x" onto the occupied path "t" is
recorded as a per-file error at execution time. -/
theorem C6_collision_runtime_error_witness :
    performRenamesAux fsTargetTaken ⟨0, 0, [], []⟩ [⟨"x", "t", "x", "t"⟩] =
      (fsTargetTaken, ⟨0, 1, ["x -> t: Destination already exists"], []⟩) :=
  (C6_collision_runtime_error.1 fsTargetTaken ⟨0, 0, [], []⟩
    ⟨"x", "t", "x", "t"⟩ [] (by decide)).trans rfl

/-! ## C8: undo reverses the recorded rename log -/

theorem fsGet_cons (a : String × List Nat) (t : Fs) (p : String) :
    fsGet (a :: t) p = if a.1 = p then some a.2 else fsGet t p := by
  simp only [fsGet, List.find?_cons]
  by_cases h : a.1 = p
  · simp [h]
  · simp [h]

theorem fsGet_append (l1 l2 : Fs) (p : String) :
    fsGet (l1 ++ l2) p =
      match fsGet l1 p with
      | some c => some c
      | none => fsGet l2 p := by
  simp only [fsGet, List.find?_append]
  cases h : List.find? (fun q => q.1 = p) l1 with
  | some q => simp [Option.or]
  | none => simp [Option.or]

theorem fsGet_filter_ne (fs : Fs) (q p : String) (h : p ≠ q) :
    fsGet (fs.filter (fun r => r.1 ≠ q)) p = fsGet fs p := by
  induction fs with
  | nil => rfl
  | cons a t ih =>
    simp only [List.filter_cons]
    simp only [decide_not] at ih
    by_cases haq : a.1 = q
    · have hap : ¬ a.1 = p := by rw [haq]; exact fun e => h e.symm
      have hqp : ¬ q = p := fun e => h e.symm
      simp [haq, fsGet_cons, hap, hqp, ih]
    · simp [haq, fsGet_cons, ih]

theorem fsGet_filter_self (fs : Fs) (q : String) :
    fsGet (fs.filter (fun r => r.1 ≠ q)) q = none := by
  simp only [fsGet, Option.map_eq_none']
  rw [List.find?_eq_none]
  intro r hr
  have hne := (List.mem_filter.mp hr).2
  simp only [decide_not, Bool.not_eq_true', decide_eq_false_iff_not] at hne
  simpa using hne

theorem fsRename_eq (fs : Fs) (old new : String) (c : List Nat)
    (h : fsGet fs old = some c) :
    fsRename fs old new = fs.filter (fun r => r.1 ≠ old) ++ [(new, c)] := by
  unfold fsRename
  rw [h]

/-- After renaming old to new (new previously free), new holds old's
content and old is gone. -/
theorem fsRename_get (fs : Fs) (old new : String) (c : List Nat)
    (h1 : fsGet fs old = some c) (h2 : fsGet fs new = none) (h3 : old ≠ new) :
    fsGet (fsRename fs old new) new = some c ∧
    fsGet (fsRename fs old new) old = none := by
  rw [fsRename_eq fs old new c h1]
  constructor
  · rw [fsGet_append]
    have hfil : fsGet (fs.filter (fun r => r.1 ≠ old)) new = none := by
      rw [fsGet_filter_ne fs old new (fun e => h3 e.symm), h2]
    rw [hfil]
    rw [fsGet_cons]
    simp
  · rw [fsGet_append, fsGet_filter_self]
    rw [fsGet_cons, if_neg (fun e => h3 e.symm)]
    rfl

/-- C8: a successful rename records (new_path, old_path) in the undo log,
and undoing that log restores the file at old_path with its original
content and leaves nothing at new_path; an undo entry whose renamed file is
missing, or whose original location is occupied, fails individually and the
remaining entries are still processed. -/
theorem C8_undo_reverses_rename :
    (∀ (fs : Fs) (old new : String) (c : List Nat),
      fsGet fs old = some c → fsExists fs new = false → old ≠ new →
      (performRenames fs [⟨old, new, old, new⟩]).2.undo_history = [(new, old)] ∧
      fsGet (undoRename (performRenames fs [⟨old, new, old, new⟩]).1
        (performRenames fs [⟨old, new, old, new⟩]).2.undo_history).1 old =
          some c ∧
      fsExists (undoRename (performRenames fs [⟨old, new, old, new⟩]).1
        (performRenames fs [⟨old, new, old, new⟩]).2.undo_history).1 new =
          false) ∧
    (∀ (fs : Fs) (s ec : Nat) (errs : List String) (cur orig : String)
      (rest : List (String × String)), fsExists fs cur = false →
      undoRenameAux fs s ec errs ((cur, orig) :: rest) =
        undoRenameAux fs s (ec + 1) (errs ++ [cur ++ ": File not found"]) rest) ∧
    (∀ (fs : Fs) (s ec : Nat) (errs : List String) (cur orig : String)
      (rest : List (String × String)),
      fsExists fs cur = true → fsExists fs orig = true →
      undoRenameAux fs s ec errs ((cur, orig) :: rest) =
        undoRenameAux fs s (ec + 1)
          (errs ++ [orig ++ ": Original filename already exists"]) rest) := by
  refine ⟨fun fs old new c h1 h2 h3 => ?_, undoStep_missing, undoStep_occupied⟩
  have hget_new : fsGet fs new = none := by
    cases hg : fsGet fs new with
    | none => rfl
    | some d => rw [fsExists, hg] at h2; simp at h2
  have hex_old : fsExists fs old = true := by rw [fsExists, h1]; rfl
  have hperf : performRenames fs [⟨old, new, old, new⟩] =
      (fsRename fs old new, ⟨1, 0, [], [(new, old)]⟩) := by
    unfold performRenames
    rw [performStep_success fs ⟨0, 0, [], []⟩ ⟨old, new, old, new⟩ [] h2 hex_old]
    rfl
  rw [hperf]
  obtain ⟨hg1, hg2⟩ := fsRename_get fs old new c h1 hget_new h3
  have hex1 : fsExists (fsRename fs old new) new = true := by
    rw [fsExists, hg1]; rfl
  have hex2 : fsExists (fsRename fs old new) old = false := by
    rw [fsExists, hg2]; rfl
  have hundo : undoRename (fsRename fs old new) [(new, old)] =
      (fsRename (fsRename fs old new) new old, 1, 0, []) := by
    unfold undoRename
    rw [undoStep_success (fsRename fs old new) 0 0 [] new old [] hex1 hex2]
    rfl
  rw [hundo]
  have hback := fsRename_get (fsRename fs old new) new old c hg1 hg2
    (fun e => h3 e.symm)
  exact ⟨rfl, hback.1, by rw [fsExists, hback.2]; rfl⟩

/-- Witness for C8: renaming A.zip to B.zip and undoing restores A.zip with
its original bytes and leaves no B.zip. -/
theorem C8_undo_reverses_rename_witness :
    (performRenames fsUndoDemo
      [⟨"A.zip", "B.zip", "A.zip", "B.zip"⟩]).2.undo_history =
        [("B.zip", "A.zip")] ∧
    fsGet (undoRename
      (performRenames fsUndoDemo [⟨"A.zip", "B.zip", "A.zip", "B.zip"⟩]).1
      (performRenames fsUndoDemo
        [⟨"A.zip", "B.zip", "A.zip", "B.zip"⟩]).2.undo_history).1 "A.zip" =
          some [7, 7, 7] ∧
    fsExists (undoRename
      (performRenames fsUndoDemo [⟨"A.zip", "B.zip", "A.zip", "B.zip"⟩]).1
      (performRenames fsUndoDemo
        [⟨"A.zip", "B.zip", "A.zip", "B.zip"⟩]).2.undo_history).1 "B.zip" =
          false :=
  C8_undo_reverses_rename.1 fsUndoDemo "A.zip" "B.zip" [7, 7, 7]
    (by decide) (by decide) (by decide)

/-! ## C9: exactly one Keep per duplicate group -/

theorem count_keep_zero (g : List DupAction)
    (h : ∀ j, j < g.length → g[j]? = some DupAction.delete) :
    g.count DupAction.keep = 0 := by
  induction g with
  | nil => rfl
  | cons a t ih =>
    have h0 := h 0 (by simp)
    simp only [List.getElem?_cons_zero, Option.some.injEq] at h0
    subst h0
    rw [List.count_cons]
    have ht : t.count DupAction.keep = 0 := by
      refine ih (fun j hj => ?_)
      have := h (j + 1) (by simpa using Nat.succ_lt_succ hj)
      simpa using this
    simp [ht]

theorem count_keep_one (g : List DupAction) (i : Nat)
    (hk : g[i]? = some DupAction.keep)
    (hd : ∀ j, j < g.length → j ≠ i → g[j]? = some DupAction.delete) :
    g.count DupAction.keep = 1 := by
  induction g generalizing i with
  | nil => simp at hk
  | cons a t ih =>
    cases i with
    | zero =>
      simp only [List.getElem?_cons_zero, Option.some.injEq] at hk
      subst hk
      rw [List.count_cons]
      have ht : t.count DupAction.keep = 0 := by
        refine count_keep_zero t (fun j hj => ?_)
        have := hd (j + 1) (by simpa using Nat.succ_lt_succ hj) (by omega)
        simpa using this
      simp [ht]
    | succ k =>
      have h0 : a = DupAction.delete := by
        have := hd 0 (by simp) (by omega)
        simpa using this
      subst h0
      rw [List.count_cons]
      have ht : t.count DupAction.keep = 1 := by
        refine ih k (by simpa using hk) (fun j hj hji => ?_)
        have := hd (j + 1) (by simpa using Nat.succ_lt_succ hj) (by omega)
        simpa using this
      simp [ht]

theorem uniqueKeep_initialActions (n : Nat) (h : 1 ≤ n) :
    UniqueKeep (initialActions n) := by
  refine ⟨0, ?_, ?_, fun j hj hji => ?_⟩
  · simpa [initialActions] using h
  · rw [initialActions, List.getElem?_map,
      List.getElem?_range (show 0 < n by omega)]
    rfl
  · have hjn : j < n := by simpa [initialActions] using hj
    rw [initialActions, List.getElem?_map, List.getElem?_range hjn]
    simp [hji]

theorem uniqueKeep_markAllDelete (g : List DupAction) (i : Nat)
    (h : i < g.length) : UniqueKeep (markAllDeleteThenKeep g i) := by
  refine ⟨i, ?_, ?_, fun j hj hji => ?_⟩
  · simpa [markAllDeleteThenKeep] using h
  · rw [markAllDeleteThenKeep, List.getElem?_set]
    simp [h]
  · have hjg : j < g.length := by simpa [markAllDeleteThenKeep] using hj
    rw [markAllDeleteThenKeep, List.getElem?_set, if_neg (fun e => hji e.symm),
      List.getElem?_map, List.getElem?_eq_getElem hjg]
    rfl

theorem toggleActions_length (g : List DupAction) (i : Nat) :
    (toggleActions g i).length = g.length := by
  cases hgi : g[i]? with
  | none =>
    have ht : toggleActions g i = g := by
      unfold toggleActions
      rw [hgi]
    rw [ht]
  | some a =>
    cases a with
    | keep =>
      cases hfind : (List.range g.length).find?
          (fun j => decide (j ≠ i ∧ g[j]? = some DupAction.delete)) with
      | none =>
        have ht : toggleActions g i = g.set i DupAction.delete := by
          unfold toggleActions
          rw [hgi, hfind]
        rw [ht, List.length_set]
      | some j =>
        have ht : toggleActions g i =
            (g.set j DupAction.keep).set i DupAction.delete := by
          unfold toggleActions
          rw [hgi, hfind]
        rw [ht, List.length_set, List.length_set]
    | delete =>
      have ht : toggleActions g i =
          (g.map (fun a => if a = DupAction.keep then DupAction.delete else a)).set
            i DupAction.keep := by
        unfold toggleActions
        rw [hgi]
      rw [ht, List.length_set, List.length_map]

theorem uniqueKeep_toggleActions (g : List DupAction) (i : Nat)
    (h2 : 2 ≤ g.length) (hu : UniqueKeep g) (hi : i < g.length) :
    UniqueKeep (toggleActions g i) := by
  obtain ⟨i0, hi0, hk0, hd0⟩ := hu
  cases hgi : g[i]? with
  | none =>
    have ht : toggleActions g i = g := by
      unfold toggleActions
      rw [hgi]
    rw [ht]
    exact ⟨i0, hi0, hk0, hd0⟩
  | some a =>
    cases a with
    | keep =>
      have hii0 : i = i0 := by
        by_contra hne
        have hdel := hd0 i hi hne
        rw [hgi] at hdel
        simp at hdel
      cases hfind : (List.range g.length).find?
          (fun j => decide (j ≠ i ∧ g[j]? = some DupAction.delete)) with
      | none =>
        exfalso
        have hall := List.find?_eq_none.mp hfind
        have hwit : (if i = 0 then 1 else 0) < g.length ∧
            (if i = 0 then 1 else 0) ≠ i := by
          by_cases hz : i = 0
          · constructor
            · rw [if_pos hz]; omega
            · rw [if_pos hz]; omega
          · constructor
            · rw [if_neg hz]; omega
            · rw [if_neg hz]; exact fun e => hz e.symm
        have hmem : (if i = 0 then 1 else 0) ∈ List.range g.length :=
          List.mem_range.mpr hwit.1
        have hnp := hall _ hmem
        simp only [decide_eq_true_eq, not_and] at hnp
        exact absurd (hd0 _ hwit.1 (by rw [← hii0]; exact hwit.2))
          (hnp hwit.2)
      | some j =>
        have hpred := List.find?_some hfind
        simp only [decide_eq_true_eq] at hpred
        obtain ⟨hji, hjd⟩ := hpred
        have hjlen : j < g.length :=
          List.mem_range.mp (List.mem_of_find?_eq_some hfind)
        have ht : toggleActions g i =
            (g.set j DupAction.keep).set i DupAction.delete := by
          unfold toggleActions
          rw [hgi, hfind]
        rw [ht]
        refine ⟨j, ?_, ?_, fun l hl hlj => ?_⟩
        · simpa using hjlen
        · rw [List.getElem?_set, if_neg (fun e => hji e.symm),
            List.getElem?_set, if_pos rfl]
          simp [hjlen]
        · have hllen : l < g.length := by simpa using hl
          by_cases hli : l = i
          · subst hli
            rw [List.getElem?_set, if_pos rfl]
            simp [hllen]
          · rw [List.getElem?_set, if_neg (fun e => hli e.symm),
              List.getElem?_set, if_neg (fun e => hlj e.symm)]
            exact hd0 l hllen (by rw [← hii0]; exact hli)
    | delete =>
      have ht : toggleActions g i =
          (g.map (fun a => if a = DupAction.keep then DupAction.delete else a)).set
            i DupAction.keep := by
        unfold toggleActions
        rw [hgi]
      rw [ht]
      refine ⟨i, ?_, ?_, fun j hj hji => ?_⟩
      · simpa using hi
      · rw [List.getElem?_set, if_pos rfl]
        simp [hi]
      · have hjg : j < g.length := by simpa using hj
        rw [List.getElem?_set, if_neg (fun e => hji e.symm),
          List.getElem?_map]
        obtain ⟨b, hb⟩ : ∃ b, g[j]? = some b :=
          ⟨_, List.getElem?_eq_getElem hjg⟩
        rw [hb]
        cases b <;> rfl

theorem dupActions_cons (m : DupMember) (t : List DupMember) :
    dupActions (m :: t) = m.action :: dupActions t := rfl

theorem dupActions_length (g : List DupMember) :
    (dupActions g).length = g.length := by
  simp [dupActions]

theorem dupActions_setAction (g : List DupMember) :
    ∀ (i : Nat) (a : DupAction),
      dupActions (setAction g i a) = (dupActions g).set i a := by
  induction g with
  | nil => intro i a; rfl
  | cons m t ih =>
    intro i a
    cases i with
    | zero => rfl
    | succ k =>
      rw [setAction, dupActions_cons, dupActions_cons, ih k a]
      rfl

theorem dupActions_markSurvivors (fs : DupFs) :
    ∀ (g : List DupMember), (∀ m ∈ g, fs m.path = true) →
      dupActions (g.map (fun m =>
        if fs m.path then { m with action := DupAction.delete } else m)) =
      (dupActions g).map (fun _ => DupAction.delete) := by
  intro g
  induction g with
  | nil => intro _h; rfl
  | cons m t ih =>
    intro h
    have hm : fs m.path = true := h m (List.mem_cons_self m t)
    simp only [List.map_cons, dupActions_cons, if_pos hm]
    rw [ih (fun m2 hm2 => h m2 (List.mem_cons_of_mem m hm2))]

/-- Action-level view of auto-selection when every member's file is still
accessible: all members re-marked Delete, then the chosen member Keep. -/
theorem dupActions_autoSelect_all (fs : DupFs) (g : List DupMember) (j : Nat)
    (h : ∀ m ∈ g, fs m.path = true) :
    dupActions (autoSelect fs g j) =
      markAllDeleteThenKeep (dupActions g) j := by
  rw [autoSelect, markAllDeleteThenKeep, dupActions_setAction,
    dupActions_markSurvivors fs g h]

theorem dupActions_mapFlip (g : List DupMember) :
    dupActions (g.map (fun m =>
      if m.action = DupAction.keep then { m with action := DupAction.delete }
      else m)) =
    (dupActions g).map
      (fun a => if a = DupAction.keep then DupAction.delete else a) := by
  induction g with
  | nil => rfl
  | cons m t ih =>
    simp only [List.map_cons, dupActions_cons]
    rw [ih]
    by_cases hm : m.action = DupAction.keep
    · rw [if_pos hm, if_pos hm]
    · rw [if_neg hm, if_neg hm]

/-- The click handler acts on the action column alone. -/
theorem dupActions_toggleAction (g : List DupMember) (i : Nat) :
    dupActions (toggleAction g i) = toggleActions (dupActions g) i := by
  unfold toggleAction toggleActions
  rw [dupActions_length]
  cases hgi : (dupActions g)[i]? with
  | none => rfl
  | some a =>
    cases a with
    | keep =>
      cases hfind : (List.range g.length).find?
          (fun j => decide (j ≠ i ∧ (dupActions g)[j]? = some DupAction.delete)) with
      | none =>
        rw [dupActions_setAction]
      | some j =>
        rw [dupActions_setAction, dupActions_setAction]
    | delete =>
      rw [dupActions_setAction, dupActions_mapFlip]

theorem displayGroupAux_all_accessible (fs : DupFs) :
    ∀ (paths : List String) (idx : Nat), (∀ p ∈ paths, fs p = true) →
      dupActions (displayGroupAux fs idx paths) =
        (List.range paths.length).map
          (fun k => if idx + k = 0 then DupAction.keep else DupAction.delete) := by
  intro paths
  induction paths with
  | nil => intro idx _h; rfl
  | cons p rest ih =>
    intro idx h
    have hp : fs p = true := h p (List.mem_cons_self p rest)
    rw [displayGroupAux, if_pos hp, dupActions_cons,
      ih (idx + 1) (fun q hq => h q (List.mem_cons_of_mem p hq)),
      List.length_cons, List.range_succ_eq_map, List.map_cons, List.map_map]
    congr 1
    have hfun : (fun k => if idx + 1 + k = 0 then DupAction.keep
        else DupAction.delete) =
        ((fun k => if idx + k = 0 then DupAction.keep else DupAction.delete) ∘
          Nat.succ) := by
      funext k
      simp only [Function.comp]
      have harg : idx + 1 + k = idx + Nat.succ k := by omega
      rw [harg]
    rw [hfun]

/-- A display with every file accessible shows the first-listed member Keep
and all others Delete. -/
theorem displayGroup_all_accessible (fs : DupFs) (paths : List String)
    (h : ∀ p ∈ paths, fs p = true) :
    dupActions (displayGroup fs paths) = initialActions paths.length := by
  rw [displayGroup, displayGroupAux_all_accessible fs paths 0 h, initialActions]
  congr 1
  funext k
  rw [Nat.zero_add]

/-- Reachable states (all member files accessible at the disk-reading
steps) keep at least two members and exactly one Keep. -/
theorem dupReach_invariant (g : List DupMember) (h : DupReach g) :
    2 ≤ g.length ∧ UniqueKeep (dupActions g) := by
  induction h with
  | init fs paths hlen hacc =>
    have hda := displayGroup_all_accessible fs paths hacc
    have hglen : (displayGroup fs paths).length = paths.length := by
      have h1 := congrArg List.length hda
      rw [dupActions_length] at h1
      simpa [initialActions] using h1
    constructor
    · rw [hglen]
      exact hlen
    · rw [hda]
      exact uniqueKeep_initialActions paths.length (by omega)
  | auto fs g j _hg hj hacc ih =>
    have hda := dupActions_autoSelect_all fs g j hacc
    have hlen : (autoSelect fs g j).length = g.length := by
      have h1 := congrArg List.length hda
      rw [dupActions_length] at h1
      simpa [markAllDeleteThenKeep, dupActions_length] using h1
    constructor
    · rw [hlen]
      exact ih.1
    · rw [hda]
      exact uniqueKeep_markAllDelete (dupActions g) j
        (by rw [dupActions_length]; exact hj)
  | toggle g i _hg hi ih =>
    have hda := dupActions_toggleAction g i
    have hlen : (toggleAction g i).length = g.length := by
      have h1 := congrArg List.length hda
      rw [dupActions_length, toggleActions_length, dupActions_length] at h1
      exact h1
    constructor
    · rw [hlen]
      exact ih.1
    · rw [hda]
      exact uniqueKeep_toggleActions (dupActions g) i
        (by rw [dupActions_length]; exact ih.1) ih.2
        (by rw [dupActions_length]; exact hi)

/-- C9 counterexample: the invariant breaks when member files vanish from
disk.  Displaying the group after its first file "a.nes" became
inaccessible skips that member while Keep stays tied to original index 0,
so the displayed group has ZERO Keep members; and auto-selecting on a group
displayed as [a.nes Keep, b.nes Delete] after "a.nes" vanished re-marks
only the surviving member, so the stale Keep survives next to the new one:
TWO Keep members. -/
theorem C9_counterexample :
    (dupActions (displayGroup fsNoA ["a.nes", "b.nes", "c.nes"])).count
        DupAction.keep = 0 ∧
    displayGroup fsAll ["a.nes", "b.nes"] =
      [⟨"a.nes", DupAction.keep⟩, ⟨"b.nes", DupAction.delete⟩] ∧
    (dupActions (autoSelect fsNoA
        (displayGroup fsAll ["a.nes", "b.nes"]) 1)).count DupAction.keep = 2 := by
  refine ⟨by decide, by decide, by decide⟩

/-- C9 amended: exactly one member is marked Keep in every reachable state
PROVIDED every member's file stays accessible at the disk-reading steps
(display and auto-selection; clicking never consults the disk), and a fully
accessible display marks the first-listed member Keep and the rest Delete.
When files vanish, the display can show zero Keep members and
auto-selection can leave two. -/
theorem C9_exactly_one_keep :
    (∀ g, DupReach g → (dupActions g).count DupAction.keep = 1) ∧
    (∀ (fs : DupFs) (paths : List String), (∀ p ∈ paths, fs p = true) →
      dupActions (displayGroup fs paths) = initialActions paths.length) := by
  constructor
  · intro g h
    obtain ⟨_h2, i, _hi, hk, hd⟩ := dupReach_invariant g h
    exact count_keep_one (dupActions g) i hk hd
  · exact displayGroup_all_accessible

/-- Witness for C9 amended at a freshly displayed two-member group with
both files on disk. -/
theorem C9_exactly_one_keep_witness :
    (dupActions (displayGroup fsAll ["a.nes", "b.nes"])).count
      DupAction.keep = 1 :=
  C9_exactly_one_keep.1 (displayGroup fsAll ["a.nes", "b.nes"])
    (DupReach.init fsAll ["a.nes", "b.nes"] (by decide) (by decide))

/-! ## C4: the hash cache

The decimal-representation lemmas below pin down the composite key
"path|size|mtime|method": with the path and the algorithm fixed, the key
determines size and mtime (digits contain no pipe, and decimal formatting is
injective). -/

theorem digitChar_toNat (d : Nat) (h : d < 10) :
    (Nat.digitChar d).toNat = 48 + d := by
  interval_cases d <;> rfl

theorem natDigits_lt (n : Nat) (h : n < 10) :
    natDigits n = [Nat.digitChar n] := by
  rw [natDigits, if_pos h]

theorem natDigits_ge (n : Nat) (h : ¬ n < 10) :
    natDigits n = natDigits (n / 10) ++ [Nat.digitChar (n % 10)] := by
  conv_lhs => rw [natDigits]
  rw [if_neg h]

theorem natDigits_ne_nil (n : Nat) : natDigits n ≠ [] := by
  by_cases h : n < 10
  · rw [natDigits_lt n h]
    simp
  · rw [natDigits_ge n h]
    simp

theorem natDigits_toNat_bounds (n : Nat) :
    ∀ c ∈ natDigits n, 48 ≤ c.toNat ∧ c.toNat ≤ 57 := by
  induction n using Nat.strong_induction_on with
  | _ n ih =>
    intro c hc
    by_cases h : n < 10
    · rw [natDigits_lt n h] at hc
      simp only [List.mem_singleton] at hc
      subst hc
      rw [digitChar_toNat n h]
      omega
    · rw [natDigits_ge n h] at hc
      rcases List.mem_append.mp hc with hc | hc
      · exact ih (n / 10) (Nat.div_lt_self (by omega) (by omega)) c hc
      · simp only [List.mem_singleton] at hc
        subst hc
        rw [digitChar_toNat _ (Nat.mod_lt _ (by omega))]
        omega

theorem natDigits_ne_pipe (n : Nat) (c : Char) (hc : c ∈ natDigits n) :
    c ≠ '|' := by
  intro he
  have hb := natDigits_toNat_bounds n c hc
  have h124 : ('|').toNat = 124 := rfl
  rw [he, h124] at hb
  omega

theorem digitChar_inj (d1 d2 : Nat) (h1 : d1 < 10) (h2 : d2 < 10)
    (h : Nat.digitChar d1 = Nat.digitChar d2) : d1 = d2 := by
  have ht := congrArg Char.toNat h
  rw [digitChar_toNat d1 h1, digitChar_toNat d2 h2] at ht
  omega

theorem natDigits_inj : ∀ m n : Nat, natDigits m = natDigits n → m = n := by
  intro m
  induction m using Nat.strong_induction_on with
  | _ m ih =>
    intro n heq
    by_cases hm : m < 10 <;> by_cases hn : n < 10
    · rw [natDigits_lt m hm, natDigits_lt n hn] at heq
      have hh : Nat.digitChar m = Nat.digitChar n := by simpa using heq
      exact digitChar_inj m n hm hn hh
    · exfalso
      rw [natDigits_lt m hm, natDigits_ge n hn] at heq
      have hlen := congrArg List.length heq
      rw [List.length_append] at hlen
      simp only [List.length_singleton] at hlen
      have hnil : natDigits (n / 10) = [] := by
        rw [← List.length_eq_zero]
        omega
      exact natDigits_ne_nil (n / 10) hnil
    · exfalso
      rw [natDigits_ge m hm, natDigits_lt n hn] at heq
      have hlen := congrArg List.length heq
      rw [List.length_append] at hlen
      simp only [List.length_singleton] at hlen
      have hnil : natDigits (m / 10) = [] := by
        rw [← List.length_eq_zero]
        omega
      exact natDigits_ne_nil (m / 10) hnil
    · rw [natDigits_ge m hm, natDigits_ge n hn] at heq
      have hrev := congrArg List.reverse heq
      simp only [List.reverse_append, List.reverse_singleton,
        List.singleton_append] at hrev
      injection hrev with hh ht
      have hmod := digitChar_inj _ _ (Nat.mod_lt _ (by omega))
        (Nat.mod_lt _ (by omega)) hh
      have hdig : natDigits (m / 10) = natDigits (n / 10) := by
        have hrr := congrArg List.reverse ht
        simpa using hrr
      have hdiv := ih (m / 10) (Nat.div_lt_self (by omega) (by omega))
        (n / 10) hdig
      omega

theorem toDigitsCore_eq_natDigits (fuel : Nat) :
    ∀ (n : Nat) (acc : List Char), n < fuel →
      Nat.toDigitsCore 10 fuel n acc = natDigits n ++ acc := by
  induction fuel with
  | zero => intro n acc h; omega
  | succ f ih =>
    intro n acc h
    simp only [Nat.toDigitsCore]
    by_cases h0 : n / 10 = 0
    · rw [if_pos h0]
      have hn10 : n < 10 := by omega
      rw [natDigits_lt n hn10, Nat.mod_eq_of_lt hn10]
      rfl
    · rw [if_neg h0]
      have hlt : n / 10 < f := by omega
      rw [ih (n / 10) (Nat.digitChar (n % 10) :: acc) hlt]
      rw [natDigits_ge n (by omega)]
      simp [List.append_assoc]

theorem natRepr_eq (n : Nat) : Nat.repr n = (natDigits n).asString := by
  rw [Nat.repr, Nat.toDigits,
    toDigitsCore_eq_natDigits (n + 1) n [] (by omega)]
  simp

theorem natToString_data_eq (n : Nat) : (toString n).data = natDigits n := by
  have hrepr : toString n = Nat.repr n := rfl
  rw [hrepr, natRepr_eq]
  rfl

theorem natToString_inj (m n : Nat) (h : toString m = toString n) : m = n := by
  have hd := congrArg String.data h
  rw [natToString_data_eq, natToString_data_eq] at hd
  exact natDigits_inj m n hd

theorem pipe_not_mem_natToString (n : Nat) : '|' ∉ (toString n).data := by
  rw [natToString_data_eq]
  intro hm
  exact natDigits_ne_pipe n _ hm rfl

theorem pipe_split : ∀ (s1 s2 r1 r2 : List Char), '|' ∉ s1 → '|' ∉ s2 →
    s1 ++ '|' :: r1 = s2 ++ '|' :: r2 → s1 = s2 ∧ r1 = r2 := by
  intro s1
  induction s1 with
  | nil =>
    intro s2 r1 r2 _h1 h2 heq
    cases s2 with
    | nil => simpa using heq
    | cons b t =>
      rw [List.nil_append, List.cons_append] at heq
      injection heq with hb _ht
      exact absurd (by rw [hb]; exact List.mem_cons_self b t) h2
  | cons a s1 ih =>
    intro s2 r1 r2 h1 h2 heq
    cases s2 with
    | nil =>
      rw [List.cons_append, List.nil_append] at heq
      injection heq with ha _ht
      exact absurd (by rw [← ha]; exact List.mem_cons_self a s1) h1
    | cons b t =>
      rw [List.cons_append, List.cons_append] at heq
      injection heq with hab htl
      have h1t : '|' ∉ s1 := fun hm => h1 (List.mem_cons_of_mem a hm)
      have h2t : '|' ∉ t := fun hm => h2 (List.mem_cons_of_mem b hm)
      obtain ⟨hs, hr⟩ := ih t r1 r2 h1t h2t htl
      exact ⟨by rw [hab, hs], hr⟩

/-- With the path and algorithm fixed, the composite cache key determines
the size and the mtime. -/
theorem cacheKey_inj (path method : String) (s1 t1 s2 t2 : Nat)
    (h : cacheKey path s1 t1 method = cacheKey path s2 t2 method) :
    s1 = s2 ∧ t1 = t2 := by
  have hd := congrArg String.data h
  unfold cacheKey at hd
  have hpipe : ("|" : String).data = ['|'] := rfl
  simp only [String.data_append, hpipe, List.append_assoc,
    List.singleton_append] at hd
  have hd2 := List.append_cancel_left hd
  injection hd2 with _ hd3
  obtain ⟨hs, hrest⟩ := pipe_split (toString s1).data (toString s2).data _ _
    (pipe_not_mem_natToString s1) (pipe_not_mem_natToString s2) hd3
  obtain ⟨ht, _⟩ := pipe_split (toString t1).data (toString t2).data _ _
    (pipe_not_mem_natToString t1) (pipe_not_mem_natToString t2) hrest
  constructor
  · exact natToString_inj s1 s2 (String.ext hs)
  · exact natToString_inj t1 t2 (String.ext ht)

/-- C4 counterexample: the cache key contains the file's mtime, so mutating
a file BACK to a previously cached size and mtime makes the next lookup a
HIT on the stale entry.  "r.nes" is hashed at (size 3, mtime 100, first
byte 1), again after a mutation to (3, 101, first byte 5), and then mutated
to (3, 100, first byte 9): that last mutation changed the mtime, yet the
next lookup returns the stale digest "1" instead of the fresh digest "9". -/
theorem C4_counterexample :
    (hashFileCached nullDigest headDigest fsCacheStepC cacheAfterTwo
      "r.nes" "sha1").1 = some "1" ∧
    headDigest [9, 9, 9] = "9" ∧
    ("1" : String) ≠ "9" := by
  refine ⟨by decide, by decide, by decide⟩

/-- C4 amended: a lookup hits exactly when the cache holds the composite
path|size|mtime|method key; a hit returns the stored digest (bumping only
the hit counter) without touching the content, a miss hashes the content
with the selected algorithm, stores the digest under the key and returns
it; changing a file's size or mtime changes its key, so the next lookup
computes a fresh digest of the new content PROVIDED the new key is not
already cached — mutating a file back to a previously cached size and mtime
returns that older state's digest instead. -/
theorem C4_hash_cache_behavior (md5Fn sha1Fn : List Nat → String)
    (fs fs2 : String → Option StatFile) (st : DupCacheState)
    (path method : String) (f f2 : StatFile) :
    (∀ d, fs path = some f →
      dictLookup st.hash_cache (cacheKey path f.size f.mtime method) = some d →
      hashFileCached md5Fn sha1Fn fs st path method =
        (some d, { st with cache_hits := st.cache_hits + 1 })) ∧
    (fs path = some f →
      dictLookup st.hash_cache (cacheKey path f.size f.mtime method) = none →
      hashFileCached md5Fn sha1Fn fs st path method =
        (some (if method = "md5" then md5Fn f.content else sha1Fn f.content),
         { st with
           hash_cache := dictSet st.hash_cache
             (cacheKey path f.size f.mtime method)
             (if method = "md5" then md5Fn f.content
              else sha1Fn f.content) })) ∧
    (f2.size ≠ f.size ∨ f2.mtime ≠ f.mtime →
      cacheKey path f2.size f2.mtime method ≠
        cacheKey path f.size f.mtime method) ∧
    (fs2 path = some f2 →
      dictLookup st.hash_cache (cacheKey path f2.size f2.mtime method) = none →
      (hashFileCached md5Fn sha1Fn fs2 st path method).1 =
        some (if method = "md5" then md5Fn f2.content
              else sha1Fn f2.content)) := by
  refine ⟨fun d hfs hhit => ?_, fun hfs hmiss => ?_, fun hne hkey => ?_,
    fun hfs2 hmiss2 => ?_⟩
  · simp [hashFileCached, hfs, hhit]
  · simp [hashFileCached, hfs, hmiss]
  · obtain ⟨hs, ht⟩ := cacheKey_inj path method f2.size f2.mtime f.size
      f.mtime hkey
    rcases hne with hne | hne
    · exact hne hs
    · exact hne ht
  · simp [hashFileCached, hfs2, hmiss2]

/-- Witness for C4 amended: a hit on the cached key returns the stored
digest, and the mutated file (same path, new mtime, key absent) hashes its
new content. -/
theorem C4_hash_cache_behavior_witness :
    hashFileCached nullDigest headDigest fsCacheHit cacheStateDemo
      "r.nes" "sha1" = (some "deadbeef", { cacheStateDemo with cache_hits := 1 }) ∧
    (hashFileCached nullDigest headDigest fsCacheMut cacheStateDemo
      "r.nes" "sha1").1 = some "4" := by
  constructor
  · exact (C4_hash_cache_behavior nullDigest headDigest fsCacheHit
      fsCacheMut cacheStateDemo "r.nes" "sha1" ⟨3, 100, [1, 2, 3]⟩
      ⟨3, 101, [4, 5, 6]⟩).1 "deadbeef" (by rfl) (by decide)
  · have h := (C4_hash_cache_behavior nullDigest headDigest fsCacheHit
      fsCacheMut cacheStateDemo "r.nes" "sha1" ⟨3, 100, [1, 2, 3]⟩
      ⟨3, 101, [4, 5, 6]⟩).2.2.2 (by rfl) (by decide)
    simpa using h

end RomLib
